import Mathlib

/-!
Verification of the Ψ-EMA signal engine (src/lib/fetch-stock-prices.py).

The core consists of four pure calculators over an ordered closing-price
series: an exponential moving average (calculate_ema), a phase angle
(calc_theta_from_flow), a robust MAD-based z-score (calc_z) and a
convergence ratio of consecutive rolling z-scores (calc_r).

Python floats are modelled as exact rationals (ℚ) for the three
algebraic calculators and as reals (ℝ) for the phase angle, whose
definition goes through atan2 and degree conversion.  A pandas Series
is modelled as a List; pandas median (linear interpolation) is the
middle element of the sorted list for odd length and the mean of the
two middle elements for even length.  Python round(x, 2) is modelled
as rounding 100*x to the nearest integer and dividing by 100.
-/

set_option maxHeartbeats 4000000

namespace PsiEma

/-- Python round(x, 2) on a rational: round 100*x to the nearest integer,
divide by 100. -/
def round2q (x : ℚ) : ℚ := (round (100 * x) : ℤ) / 100

/-- pandas Series.median modelled on a list of rationals: sort; middle
element for odd length, mean of the two middle elements for even length
(0 for the empty list, which the calculators never reach). -/
def medianQ (l : List ℚ) : ℚ :=
  let s := List.insertionSort (fun a b => a ≤ b) l
  let n := l.length
  if n = 0 then 0
  else if n % 2 = 1 then s.getD (n / 2) 0
  else (s.getD (n / 2 - 1) 0 + s.getD (n / 2) 0) / 2

/-- Median absolute deviation: median of the absolute deviations from the
median, as computed inline by calc_z and rolling_z in the source. -/
def madQ (l : List ℚ) : ℚ := medianQ (l.map (fun x => |x - medianQ l|))

/-- calculate_ema from the source: None when the series is shorter than the
period; otherwise seed with the first element of the whole series and fold
ema = val * m + ema * (1 - m) over the remaining elements, m = 2/(period+1).
The empty-series/period-0 corner (series.iloc with index 0 raising) is
modelled as none. -/
def calculate_ema (series : List ℚ) (period : ℕ) : Option ℚ :=
  if series.length < period then none
  else
    let multiplier : ℚ := 2 / ((period : ℚ) + 1)
    match series with
    | [] => none
    | x :: rest =>
        some (rest.foldl (fun ema val => val * multiplier + ema * (1 - multiplier)) x)

/-- calc_z from the source: 0 for fewer than 21 points, 0 when the MAD is
zero, otherwise (current - median) / mad rounded to 2 decimals. -/
def calc_z (prices : List ℚ) (current : ℚ) : ℚ :=
  if prices.length < 21 then 0
  else
    let median := medianQ prices
    let mad := medianQ (prices.map (fun x => |x - median|))
    if mad = 0 then 0
    else round2q ((current - median) / mad)

/-- rolling_z from the source (inner helper of calc_r): None when the series
is shorter than the lookback; otherwise median and MAD of the trailing
lookback points; None when that MAD is zero, else
(last point of the whole series - median) / mad, unrounded. -/
def rolling_z (series : List ℚ) (lookback : ℕ) : Option ℚ :=
  if series.length < lookback then none
  else
    let recent := series.drop (series.length - lookback)
    let median := medianQ recent
    let mad := medianQ (recent.map (fun x => |x - median|))
    if mad = 0 then none
    else some ((series.getLastD 0 - median) / mad)

/-- calc_r from the source: 1.0 for fewer than 35 points; z_curr is the
34-point rolling z-score of the series, z_prev that of the series with its
last point dropped, computed only when the untrimmed series has more than 34
points; 1.0 when either is None or z_prev = 0, else z_curr / z_prev clamped
to [-5, 5] and rounded to 2 decimals. -/
def calc_r (prices : List ℚ) : ℚ :=
  if prices.length < 35 then 1
  else
    let z_curr := rolling_z prices 34
    let z_prev := if 34 < prices.length then rolling_z prices.dropLast 34 else none
    match z_curr, z_prev with
    | some zc, some zp => if zp = 0 then 1 else round2q (max (-5) (min 5 (zc / zp)))
    | _, _ => 1

/-- The two-argument arctangent with the C99/Python convention on pure reals:
arctan(y/x) shifted by ±π in the left half-plane, ±π/2 on the positive and
negative y-axis, 0 at the origin. -/
noncomputable def atan2 (y x : ℝ) : ℝ :=
  if 0 < x then Real.arctan (y / x)
  else if x < 0 then
    if 0 ≤ y then Real.arctan (y / x) + Real.pi
    else Real.arctan (y / x) - Real.pi
  else if 0 < y then Real.pi / 2
  else if y < 0 then -(Real.pi / 2)
  else 0

/-- Python round(x, 2) on a real. -/
noncomputable def round2R (x : ℝ) : ℝ := (round (100 * x) : ℤ) / 100

/-- calc_theta_from_flow from the source: 0 for fewer than 2 points;
otherwise the two-argument arctangent of (last change, previous level),
converted to degrees and rounded to 2 decimals. -/
noncomputable def calc_theta_from_flow (prices : List ℝ) : ℝ :=
  if prices.length < 2 then 0
  else
    let current := prices.getD (prices.length - 1) 0
    let prev := prices.getD (prices.length - 2) 0
    let delta := current - prev
    round2R (atan2 delta prev * (180 / Real.pi))

/-- EMA recursion following the wording of the spec: iterate the remaining
elements in time order, updating avg = value * multiplier + avg * (1 - multiplier). -/
def emaLoop (m : ℚ) : ℚ → List ℚ → ℚ
  | avg, [] => avg
  | avg, v :: vs => emaLoop m (v * m + avg * (1 - m)) vs

/-- EMA following the wording of the spec: unavailable below the period,
otherwise seed with the first element of the entire series and run the
update loop over the rest with multiplier 2/(period+1). -/
def emaSpec (series : List ℚ) (period : ℕ) : Option ℚ :=
  if series.length < period then none
  else
    match series with
    | [] => none
    | first :: rest => some (emaLoop (2 / ((period : ℚ) + 1)) first rest)

/-- Division that signals a zero denominator instead of defaulting to 0. -/
def cdiv (a b : ℚ) : Option ℚ := if b = 0 then none else some (a / b)

/-- calculate_ema with every source-level division checked: none in the
outer Option marks a division by zero or an out-of-range iloc access. -/
def emaChecked (series : List ℚ) (period : ℕ) : Option (Option ℚ) :=
  if series.length < period then some none
  else
    match cdiv 2 ((period : ℚ) + 1) with
    | none => none
    | some m =>
        match series with
        | [] => none
        | x :: rest =>
            some (some (rest.foldl (fun ema val => val * m + ema * (1 - m)) x))

/-- calc_z with its source-level division checked. -/
def calcZChecked (prices : List ℚ) (current : ℚ) : Option ℚ :=
  if prices.length < 21 then some 0
  else
    let median := medianQ prices
    let mad := medianQ (prices.map (fun x => |x - median|))
    if mad = 0 then some 0
    else (cdiv (current - median) mad).map round2q

/-- rolling_z with its source-level division checked. -/
def rollingZChecked (series : List ℚ) (lookback : ℕ) : Option (Option ℚ) :=
  if series.length < lookback then some none
  else
    let recent := series.drop (series.length - lookback)
    let median := medianQ recent
    let mad := medianQ (recent.map (fun x => |x - median|))
    if mad = 0 then some none
    else (cdiv (series.getLastD 0 - median) mad).map some

/-- calc_r with every source-level division checked. -/
def calcRChecked (prices : List ℚ) : Option ℚ :=
  if prices.length < 35 then some 1
  else
    match rollingZChecked prices 34 with
    | none => none
    | some z_curr =>
        match (if 34 < prices.length then rollingZChecked prices.dropLast 34 else some none) with
        | none => none
        | some z_prev =>
            match z_curr, z_prev with
            | some zc, some zp =>
                if zp = 0 then some 1
                else (cdiv zc zp).map (fun r => round2q (max (-5) (min 5 r)))
            | _, _ => some 1

/-- Real division that signals a zero denominator. -/
noncomputable def cdivR (a b : ℝ) : Option ℝ := if b = 0 then none else some (a / b)

/-- atan2 with its internal division checked: the quotient y/x is formed
only in the two branches that have established x ≠ 0. -/
noncomputable def atan2Checked (y x : ℝ) : Option ℝ :=
  if 0 < x then (cdivR y x).map Real.arctan
  else if x < 0 then
    (cdivR y x).map
      (fun q => if 0 ≤ y then Real.arctan q + Real.pi else Real.arctan q - Real.pi)
  else some (if 0 < y then Real.pi / 2 else if y < 0 then -(Real.pi / 2) else 0)

/-- calc_theta_from_flow with the atan2 division checked. -/
noncomputable def thetaChecked (prices : List ℝ) : Option ℝ :=
  if prices.length < 2 then some 0
  else
    let current := prices.getD (prices.length - 1) 0
    let prev := prices.getD (prices.length - 2) 0
    (atan2Checked (current - prev) prev).map (fun r => round2R (r * (180 / Real.pi)))

/-- Abs on ℚ as a conditional, used to evaluate the calculators on concrete
inputs. -/
theorem absq (x : ℚ) : |x| = if 0 ≤ x then x else -x := by
  split
  case isTrue h => exact abs_of_nonneg h
  case isFalse h => exact abs_of_neg (lt_of_not_le h)

/-- The spec's EMA update loop agrees with the fold in the source. -/
theorem emaLoop_eq_foldl (m avg : ℚ) (l : List ℚ) :
    emaLoop m avg l = l.foldl (fun ema val => val * m + ema * (1 - m)) avg := by
  induction l generalizing avg with
  | nil => rfl
  | cons v vs ih => simp only [emaLoop, List.foldl_cons, ih]

/-- C1: for every series and positive period, calculate_ema is unavailable
below the period and otherwise seeds with the first element of the whole
series and iterates avg = value * m + avg * (1 - m), m = 2/(period+1),
over the remaining elements in order, returning the final value unrounded;
on [100, 101, 99, 105, 102] with period 3 the result is exactly 102.1875. -/
theorem C1_ema_definition (series : List ℚ) (period : ℕ) (hp : 0 < period) :
    calculate_ema series period = emaSpec series period ∧
    calculate_ema [100, 101, 99, 105, 102] 3 = some (102.1875 : ℚ) := by
  constructor
  · unfold calculate_ema emaSpec
    split
    · rfl
    · cases series with
      | nil => rfl
      | cons x rest => simp only [emaLoop_eq_foldl]
  · norm_num [calculate_ema]

/-- Witness for C1 at the worked example of the spec. -/
theorem C1_witness :
    0 < 3 ∧
      (calculate_ema [100, 101, 99, 105, 102] 3 = emaSpec [100, 101, 99, 105, 102] 3 ∧
        calculate_ema [100, 101, 99, 105, 102] 3 = some (102.1875 : ℚ)) :=
  ⟨by norm_num, C1_ema_definition [100, 101, 99, 105, 102] 3 (by norm_num)⟩

/-- The EMA fold leaves a constant series at its constant value. -/
theorem ema_foldl_const (m v : ℚ) (l : List ℚ) (h : ∀ x ∈ l, x = v) :
    l.foldl (fun ema val => val * m + ema * (1 - m)) v = v := by
  induction l with
  | nil => rfl
  | cons a t ih =>
      have ha : a = v := h a (List.mem_cons_self a t)
      have hstep : a * m + v * (1 - m) = v := by rw [ha]; ring
      simp only [List.foldl_cons, hstep]
      exact ih (fun x hx => h x (List.mem_cons_of_mem a hx))

/-- C9: on a constant series of length at least the (positive) period, the
EMA is exactly the constant. -/
theorem C9_ema_constant (p : ℕ) (v : ℚ) (l : List ℚ)
    (hp : 0 < p) (hlen : p ≤ l.length) (hconst : ∀ x ∈ l, x = v) :
    calculate_ema l p = some v := by
  cases l with
  | nil =>
      exfalso
      simp only [List.length_nil] at hlen
      omega
  | cons x rest =>
      unfold calculate_ema
      rw [if_neg (not_lt.2 hlen)]
      have hx : x = v := hconst x (List.mem_cons_self x rest)
      rw [hx]
      exact congrArg some
        (ema_foldl_const _ v rest (fun y hy => hconst y (List.mem_cons_of_mem x hy)))

/-- Witness for C9: the constant series [7, 7, 7] with period 2. -/
theorem C9_witness : 0 < 2 ∧ 2 ≤ ([(7 : ℚ), 7, 7]).length ∧ calculate_ema [(7 : ℚ), 7, 7] 2 = some 7 :=
  ⟨by norm_num, by norm_num,
    C9_ema_constant 2 7 [7, 7, 7] (by norm_num) (by norm_num)
      (by intro x hx; simp only [List.mem_cons, List.not_mem_nil, or_false] at hx; rcases hx with h | h | h <;> exact h)⟩

/-- C2: calc_z returns 0 below 21 points, 0 when the MAD vanishes, and the
rounded robust z-score (current - median) / mad otherwise. -/
theorem C2_zscore_definition (prices : List ℚ) (current : ℚ) :
    (prices.length < 21 → calc_z prices current = 0) ∧
    (21 ≤ prices.length → madQ prices = 0 → calc_z prices current = 0) ∧
    (21 ≤ prices.length → madQ prices ≠ 0 →
      calc_z prices current = round2q ((current - medianQ prices) / madQ prices)) := by
  refine ⟨fun h => ?_, fun h hmad => ?_, fun h hmad => ?_⟩
  · simp only [calc_z, if_pos h]
  · simp only [calc_z, madQ] at hmad ⊢
    rw [if_neg (not_lt.2 h), if_pos hmad]
  · simp only [calc_z, madQ] at hmad ⊢
    rw [if_neg (not_lt.2 h), if_neg hmad]

/-- Concrete 21-point series used to witness C2. -/
def c2series : List ℚ :=
  [0, 1, 2, 3, 4, 5, 6, 7, 8, 9, 10, 11, 12, 13, 14, 15, 16, 17, 18, 19, 20]

/-- Witness for C2 on the 21-point series 0..20 with current 20. -/
theorem C2_witness :
    21 ≤ c2series.length ∧ madQ c2series ≠ 0 ∧
      calc_z c2series 20 = round2q ((20 - medianQ c2series) / madQ c2series) :=
  ⟨by norm_num [c2series],
    by norm_num [c2series, madQ, medianQ, absq, List.insertionSort, List.orderedInsert],
    (C2_zscore_definition c2series 20).2.2 (by norm_num [c2series])
      (by norm_num [c2series, madQ, medianQ, absq, List.insertionSort, List.orderedInsert])⟩

/-- Sorting with insertionSort identifies permutation-equal rational lists. -/
theorem insertionSort_eq_of_perm (l l2 : List ℚ) (h : l.Perm l2) :
    List.insertionSort (fun a b => a ≤ b) l = List.insertionSort (fun a b => a ≤ b) l2 :=
  List.eq_of_perm_of_sorted
    ((List.perm_insertionSort _ l).trans (h.trans (List.perm_insertionSort _ l2).symm))
    (List.sorted_insertionSort _ l) (List.sorted_insertionSort _ l2)

/-- The modelled pandas median is invariant under permutation. -/
theorem medianQ_perm (l l2 : List ℚ) (h : l.Perm l2) : medianQ l = medianQ l2 := by
  unfold medianQ
  rw [insertionSort_eq_of_perm l l2 h, h.length_eq]

/-- C10: calc_z depends on its series argument only through the median and
the MAD, so it is invariant under permutation of the series. -/
theorem C10_zscore_perm (l l2 : List ℚ) (c : ℚ) (h : l.Perm l2) :
    calc_z l c = calc_z l2 c := by
  have hmed : medianQ l = medianQ l2 := medianQ_perm l l2 h
  have hmad : medianQ (l.map (fun x => |x - medianQ l2|)) =
      medianQ (l2.map (fun x => |x - medianQ l2|)) :=
    medianQ_perm _ _ (h.map _)
  simp only [calc_z, h.length_eq, hmed, hmad]

/-- Witness for C10: swapping the two elements of a series. -/
theorem C10_witness : calc_z [(2 : ℚ), 1] 0 = calc_z [(1 : ℚ), 2] 0 :=
  C10_zscore_perm [2, 1] [1, 2] 0 (List.Perm.swap 1 2 [])

/-- Rounding to 2 decimals keeps a value of [-5, 5] inside [-5, 5]. -/
theorem round2q_pm5 (x : ℚ) (h1 : -5 ≤ x) (h2 : x ≤ 5) :
    -5 ≤ round2q x ∧ round2q x ≤ 5 := by
  unfold round2q
  rw [round_eq]
  have hl : (-500 : ℤ) ≤ ⌊100 * x + 1 / 2⌋ := by
    rw [Int.le_floor]
    push_cast
    linarith
  have hu : ⌊100 * x + 1 / 2⌋ ≤ 500 := by
    have hlt : ⌊100 * x + 1 / 2⌋ < 501 := by
      rw [Int.floor_lt]
      push_cast
      linarith
    omega
  constructor
  · have hc : ((-500 : ℤ) : ℚ) ≤ (⌊100 * x + 1 / 2⌋ : ℚ) := by exact_mod_cast hl
    push_cast at hc
    linarith
  · have hc : ((⌊100 * x + 1 / 2⌋ : ℤ) : ℚ) ≤ ((500 : ℤ) : ℚ) := by exact_mod_cast hu
    push_cast at hc
    linarith

/-- C3: calc_r always lies in [-5, 5] and equals 1.0 on any series shorter
than 35 points. -/
theorem C3_r_bounds (prices : List ℚ) :
    (-5 ≤ calc_r prices ∧ calc_r prices ≤ 5) ∧
    (prices.length < 35 → calc_r prices = 1) := by
  constructor
  · simp only [calc_r]
    split
    · norm_num
    · cases hzc : rolling_z prices 34 with
      | none =>
          cases hzp : (if 34 < prices.length then rolling_z prices.dropLast 34 else none) <;>
            norm_num
      | some zc =>
          cases hzp : (if 34 < prices.length then rolling_z prices.dropLast 34 else none) with
          | none => norm_num
          | some zp =>
              by_cases hz : zp = 0
              · norm_num [hz]
              · simp only [hz, if_false]
                exact round2q_pm5 _ (le_max_left _ _) (max_le (by norm_num) (min_le_left _ _))
  · intro h
    simp only [calc_r, if_pos h]

/-- Witness for C3 on the empty series. -/
theorem C3_witness : ([] : List ℚ).length < 35 ∧ calc_r [] = 1 :=
  ⟨by norm_num, (C3_r_bounds []).2 (by norm_num)⟩

/-- A 35-point series on which z_previous is computed from the 34 trimmed
points and the convergence ratio is not 1.0. -/
def c4series : List ℚ :=
  [0, 1, 2, 3, 4, 5, 6, 7, 8, 9, 10, 11, 12, 13, 14, 15, 16, 17, 18, 19,
   20, 21, 22, 23, 24, 25, 26, 27, 28, 29, 30, 31, 32, 33, 100]

/-- C4 counterexample: a series of exactly 35 points for which calc_r is 5,
not 1.0, because the guard on z_previous tests the untrimmed length, so the
trimmed 34-point series is accepted by rolling_z. -/
theorem C4_counterexample :
    c4series.length = 35 ∧ calc_r c4series = 5 ∧ calc_r c4series ≠ 1 := by
  have h : calc_r c4series = 5 := by
    norm_num [c4series, calc_r, rolling_z, medianQ, round2q, round_eq, absq,
      List.insertionSort, List.orderedInsert, List.getLastD, List.getLast?, List.getLast,
      List.dropLast, max_def, min_def]
  exact ⟨by norm_num [c4series], h, by rw [h]; norm_num⟩

/-- C4 amended: the guard on z_previous tests the untrimmed length (more
than 34 points), so whenever the trimmed rolling z-score is undefined the
result is 1.0, and on a series of 35 or more points whose trimmed rolling
z-score is defined and nonzero the result is the clamped rounded ratio,
which need not be 1.0. -/
theorem C4_amended_zprev (prices : List ℚ) :
    (rolling_z prices.dropLast 34 = none → calc_r prices = 1) ∧
    (∀ zc zp : ℚ, 35 ≤ prices.length → rolling_z prices 34 = some zc →
      rolling_z prices.dropLast 34 = some zp → zp ≠ 0 →
      calc_r prices = round2q (max (-5) (min 5 (zc / zp)))) := by
  constructor
  · intro h
    simp only [calc_r]
    split
    · rfl
    · rw [h, ite_self]
      cases rolling_z prices 34 <;> rfl
  · intro zc zp h35 hzc hzp hne
    simp only [calc_r, hzc]
    rw [if_neg (not_lt.2 h35), if_pos (by omega : 34 < prices.length), hzp]
    simp [hne]

/-- Witness for C4 on the 35-point series: both rolling z-scores are
defined and the ratio is clamped and rounded to 5. -/
theorem C4_witness :
    rolling_z c4series 34 = some (165 / 17) ∧
    rolling_z c4series.dropLast 34 = some (33 / 17) ∧
    calc_r c4series = round2q (max (-5) (min 5 ((165 / 17) / (33 / 17)))) := by
  have h1 : rolling_z c4series 34 = some (165 / 17) := by
    norm_num [c4series, rolling_z, medianQ, absq, List.insertionSort, List.orderedInsert,
      List.getLastD, List.getLast?, List.getLast, List.dropLast]
  have h2 : rolling_z c4series.dropLast 34 = some (33 / 17) := by
    norm_num [c4series, rolling_z, medianQ, absq, List.insertionSort, List.orderedInsert,
      List.getLastD, List.getLast?, List.getLast, List.dropLast]
  exact ⟨h1, h2,
    (C4_amended_zprev c4series).2 _ _ (by norm_num [c4series]) h1 h2 (by norm_num)⟩

/-- On a two-element series theta reduces to the rounded degree conversion
of atan2 of (second - first, first). -/
theorem theta_pair (a b : ℝ) :
    calc_theta_from_flow [a, b] = round2R (atan2 (b - a) a * (180 / Real.pi)) := by
  simp [calc_theta_from_flow, List.getD]

/-- Rounding an integer to 2 decimals returns it unchanged. -/
theorem round2R_intCast (n : ℤ) : round2R ((n : ℝ)) = (n : ℝ) := by
  unfold round2R
  have h : (100 : ℝ) * (n : ℝ) = ((100 * n : ℤ) : ℝ) := by push_cast; ring
  rw [h, round_intCast]
  push_cast
  ring

/-- The modelled atan2 always lies in (-π, π]. -/
theorem atan2_range (y x : ℝ) : -Real.pi < atan2 y x ∧ atan2 y x ≤ Real.pi := by
  have hpi := Real.pi_pos
  unfold atan2
  split
  case isTrue hx =>
    have h1 := Real.neg_pi_div_two_lt_arctan (y / x)
    have h2 := Real.arctan_lt_pi_div_two (y / x)
    constructor <;> linarith
  case isFalse hx =>
    split
    case isTrue hx2 =>
      split
      case isTrue hy =>
        have hdiv : y / x ≤ 0 := div_nonpos_iff.mpr (Or.inl ⟨hy, hx2.le⟩)
        have harc : Real.arctan (y / x) ≤ 0 := by
          have hm := Real.arctan_strictMono.monotone hdiv
          rwa [Real.arctan_zero] at hm
        have h1 := Real.neg_pi_div_two_lt_arctan (y / x)
        constructor <;> linarith
      case isFalse hy =>
        have hy2 : y < 0 := lt_of_not_le hy
        have hdiv : 0 < y / x := div_pos_iff.mpr (Or.inr ⟨hy2, hx2⟩)
        have harc : 0 < Real.arctan (y / x) := by
          have hm := Real.arctan_strictMono hdiv
          rwa [Real.arctan_zero] at hm
        have h2 := Real.arctan_lt_pi_div_two (y / x)
        constructor <;> linarith
    case isFalse hx2 =>
      split
      case isTrue hy => constructor <;> linarith
      case isFalse hy =>
        split
        case isTrue hy2 => constructor <;> linarith
        case isFalse hy2 => constructor <;> linarith

/-- Rounding to 2 decimals keeps a value of (-180, 180] inside [-180, 180]. -/
theorem round2R_mem_pm180 (x : ℝ) (h1 : -180 < x) (h2 : x ≤ 180) :
    -180 ≤ round2R x ∧ round2R x ≤ 180 := by
  unfold round2R
  rw [round_eq]
  have hl : (-18000 : ℤ) ≤ ⌊100 * x + 1 / 2⌋ := by
    rw [Int.le_floor]
    push_cast
    linarith
  have hu : ⌊100 * x + 1 / 2⌋ ≤ 18000 := by
    have hlt : ⌊100 * x + 1 / 2⌋ < 18001 := by
      rw [Int.floor_lt]
      push_cast
      linarith
    omega
  constructor
  · have hc : ((-18000 : ℤ) : ℝ) ≤ ((⌊100 * x + 1 / 2⌋ : ℤ) : ℝ) := by exact_mod_cast hl
    push_cast at hc
    linarith
  · have hc : ((⌊100 * x + 1 / 2⌋ : ℤ) : ℝ) ≤ ((18000 : ℤ) : ℝ) := by exact_mod_cast hu
    push_cast at hc
    linarith

/-- C5 counterexample: on the constant two-element series [-1, -1] the code
returns 180, not 0, because atan2(0, x) is π for negative x. -/
theorem C5_counterexample : calc_theta_from_flow [(-1 : ℝ), -1] ≠ 0 := by
  have key : calc_theta_from_flow [(-1 : ℝ), -1] = 180 := by
    rw [theta_pair]
    have hx : atan2 ((-1 : ℝ) - -1) (-1) = Real.pi := by
      unfold atan2
      rw [if_neg (by norm_num), if_pos (by norm_num), if_pos (by norm_num)]
      norm_num [Real.arctan_zero]
    rw [hx]
    have h2 : Real.pi * (180 / Real.pi) = 180 := by
      field_simp
    rw [h2]
    have h3 : (180 : ℝ) = ((180 : ℤ) : ℝ) := by norm_num
    rw [h3, round2R_intCast]
  rw [key]
  norm_num

/-- C5 amended: theta of a constant two-element series [x, x] is 0 when
x is positive, and 180 when x is negative. -/
theorem C5_amended_theta_const (x : ℝ) :
    (0 < x → calc_theta_from_flow [x, x] = 0) ∧
    (x < 0 → calc_theta_from_flow [x, x] = 180) := by
  constructor
  · intro hx
    rw [theta_pair]
    have h : atan2 (x - x) x = 0 := by
      unfold atan2
      rw [if_pos hx]
      simp [Real.arctan_zero]
    rw [h, zero_mul]
    have h3 : (0 : ℝ) = ((0 : ℤ) : ℝ) := by norm_num
    rw [h3, round2R_intCast]
  · intro hx
    rw [theta_pair]
    have h : atan2 (x - x) x = Real.pi := by
      unfold atan2
      rw [if_neg (by linarith), if_pos hx, if_pos (by norm_num)]
      simp [Real.arctan_zero]
    rw [h]
    have h2 : Real.pi * (180 / Real.pi) = 180 := by
      field_simp
    rw [h2]
    have h3 : (180 : ℝ) = ((180 : ℤ) : ℝ) := by norm_num
    rw [h3, round2R_intCast]

/-- Witness for C5 on the positive constant series [1, 1]. -/
theorem C5_witness : (0 : ℝ) < 1 ∧ calc_theta_from_flow [(1 : ℝ), 1] = 0 :=
  ⟨one_pos, (C5_amended_theta_const 1).1 one_pos⟩

/-- C6 counterexample: the series [0, 0] has its second-to-last element
equal to 0, yet theta is 0, not plus or minus 90, because the final change
is also 0 and atan2(0, 0) is 0. -/
theorem C6_counterexample :
    ¬ (calc_theta_from_flow [(0 : ℝ), 0] = 90 ∨ calc_theta_from_flow [(0 : ℝ), 0] = -90) := by
  have key : calc_theta_from_flow [(0 : ℝ), 0] = 0 := by
    rw [theta_pair]
    have hx : atan2 ((0 : ℝ) - 0) 0 = 0 := by
      unfold atan2
      norm_num
    rw [hx, zero_mul]
    have h3 : (0 : ℝ) = ((0 : ℤ) : ℝ) := by norm_num
    rw [h3, round2R_intCast]
  rw [key]
  norm_num

/-- C6 amended: when the second-to-last element is 0 and the last element is
nonzero, theta is +90 for a positive last change and -90 for a negative one,
without raising. -/
theorem C6_amended_vertical (l : List ℝ) (h2 : 2 ≤ l.length)
    (hprev : l.getD (l.length - 2) 0 = 0) (hlast : l.getD (l.length - 1) 0 ≠ 0) :
    calc_theta_from_flow l = 90 ∨ calc_theta_from_flow l = -90 := by
  have hpi := Real.pi_ne_zero
  simp only [calc_theta_from_flow, if_neg (not_lt.2 h2)]
  rw [hprev, sub_zero]
  rcases lt_or_gt_of_ne hlast with hneg | hpos
  · right
    have hx : atan2 (l.getD (l.length - 1) 0) 0 = -(Real.pi / 2) := by
      unfold atan2
      rw [if_neg (by norm_num), if_neg (by norm_num), if_neg (by linarith), if_pos hneg]
    rw [hx]
    have hv : -(Real.pi / 2) * (180 / Real.pi) = -90 := by
      field_simp
      ring
    rw [hv]
    have h3 : (-90 : ℝ) = ((-90 : ℤ) : ℝ) := by norm_num
    rw [h3, round2R_intCast]
  · left
    have hx : atan2 (l.getD (l.length - 1) 0) 0 = Real.pi / 2 := by
      unfold atan2
      rw [if_neg (by norm_num), if_neg (by norm_num), if_pos hpos]
    rw [hx]
    have hv : Real.pi / 2 * (180 / Real.pi) = 90 := by
      field_simp
      ring
    rw [hv]
    have h3 : (90 : ℝ) = ((90 : ℤ) : ℝ) := by norm_num
    rw [h3, round2R_intCast]

/-- Witness for C6 on the series [0, 1]. -/
theorem C6_witness :
    2 ≤ ([(0 : ℝ), 1]).length ∧
      (calc_theta_from_flow [(0 : ℝ), 1] = 90 ∨ calc_theta_from_flow [(0 : ℝ), 1] = -90) :=
  ⟨by norm_num,
    C6_amended_vertical [0, 1] (by norm_num) (by simp [List.getD]) (by simp [List.getD])⟩

/-- C8 counterexample: a last change of -1/20000 against a price level of -1
gives an angle slightly above -180 degrees, which rounds to exactly -180,
outside the half-open interval (-180, 180]. -/
theorem C8_counterexample :
    ¬ (-180 < calc_theta_from_flow [(-1 : ℝ), -20001 / 20000] ∧
        calc_theta_from_flow [(-1 : ℝ), -20001 / 20000] ≤ 180) := by
  have key : calc_theta_from_flow [(-1 : ℝ), -20001 / 20000] = -180 := by
    rw [theta_pair]
    have hd : (-20001 / 20000 : ℝ) - -1 = -(1 / 20000) := by norm_num
    rw [hd]
    have hx : atan2 (-(1 / 20000) : ℝ) (-1) = Real.arctan (1 / 20000) - Real.pi := by
      unfold atan2
      rw [if_neg (by norm_num), if_pos (by norm_num), if_neg (by norm_num)]
      norm_num
    rw [hx]
    set a := Real.arctan (1 / 20000) with ha
    have ha0 : 0 < a := by
      rw [ha, ← Real.arctan_zero]
      exact Real.arctan_strictMono (by norm_num)
    have halt : a < 1 / 20000 := by
      have hhalf : a < Real.pi / 2 := Real.arctan_lt_pi_div_two _
      have htan := Real.lt_tan ha0 hhalf
      rwa [ha, Real.tan_arctan] at htan
    have hpi3 : 3 < Real.pi := Real.pi_gt_three
    have hpipos := Real.pi_pos
    have hb1 : 0 < 180 * a / Real.pi := by positivity
    have hb2 : 180 * a / Real.pi < 3 / 1000 := by
      have hq : a / Real.pi < a / 3 := div_lt_div_of_pos_left ha0 (by norm_num) hpi3
      have hrw : 180 * a / Real.pi = 180 * (a / Real.pi) := by ring
      rw [hrw]
      nlinarith
    have hval : (a - Real.pi) * (180 / Real.pi) = 180 * a / Real.pi - 180 := by
      field_simp
      ring
    rw [hval]
    unfold round2R
    have hfloor : ⌊(100 : ℝ) * (180 * a / Real.pi - 180) + 1 / 2⌋ = -18000 := by
      rw [Int.floor_eq_iff]
      constructor
      · push_cast
        linarith
      · push_cast
        linarith
    rw [round_eq, hfloor]
    norm_num
  intro hcontra
  rw [key] at hcontra
  exact lt_irrefl _ hcontra.1

/-- C8 amended: after rounding, theta always lies in the closed interval
[-180, 180]; the left endpoint -180 is attainable, so the half-open
interval (-180, 180] of the claim is off only at that endpoint. -/
theorem C8_amended_theta_range (prices : List ℝ) :
    -180 ≤ calc_theta_from_flow prices ∧ calc_theta_from_flow prices ≤ 180 := by
  simp only [calc_theta_from_flow]
  split
  · norm_num
  · obtain ⟨hl, hu⟩ :=
      atan2_range (prices.getD (prices.length - 1) 0 - prices.getD (prices.length - 2) 0)
        (prices.getD (prices.length - 2) 0)
    have hpipos := Real.pi_pos
    apply round2R_mem_pm180
    · have hmul :
          -Real.pi * (180 / Real.pi) <
            atan2 (prices.getD (prices.length - 1) 0 - prices.getD (prices.length - 2) 0)
              (prices.getD (prices.length - 2) 0) * (180 / Real.pi) :=
        mul_lt_mul_of_pos_right hl (by positivity)
      have hneg : -Real.pi * (180 / Real.pi) = -180 := by
        field_simp
        ring
      linarith
    · have hmul :
          atan2 (prices.getD (prices.length - 1) 0 - prices.getD (prices.length - 2) 0)
              (prices.getD (prices.length - 2) 0) * (180 / Real.pi) ≤
            Real.pi * (180 / Real.pi) :=
        mul_le_mul_of_nonneg_right hu (by positivity)
      have hpos : Real.pi * (180 / Real.pi) = 180 := by
        field_simp
      linarith

/-- The checked rolling z-score never reports a division by zero: the MAD
is tested before the quotient is formed. -/
theorem rollingZChecked_eq (series : List ℚ) (lookback : ℕ) :
    rollingZChecked series lookback = some (rolling_z series lookback) := by
  simp only [rollingZChecked, rolling_z]
  split
  · rfl
  · split
    case isTrue h => rfl
    case isFalse h =>
      simp only [cdiv, if_neg h, Option.map_some']

/-- C7: every source-level division in the four calculators is guarded
before execution: with a positive period, the checked variants (which
signal a division by zero or an out-of-range access as an outer none)
always succeed and agree with the unchecked functions, so insufficient
data and degenerate series produce the documented defaults, never an
error.  calc_theta_from_flow itself performs no source-level division;
its checked variant guards the quotient inside the atan2 convention. -/
theorem C7_divisions_guarded (s : List ℚ) (t : List ℝ) (p : ℕ) (c : ℚ) (hp : 0 < p) :
    emaChecked s p = some (calculate_ema s p) ∧
    calcZChecked s c = some (calc_z s c) ∧
    calcRChecked s = some (calc_r s) ∧
    thetaChecked t = some (calc_theta_from_flow t) := by
  refine ⟨?_, ?_, ?_, ?_⟩
  · simp only [emaChecked, calculate_ema]
    split
    case isTrue h => rfl
    case isFalse h =>
      have hpos : (0 : ℚ) < (p : ℚ) + 1 := by positivity
      simp only [cdiv, if_neg hpos.ne']
      cases s with
      | nil =>
          exfalso
          simp only [List.length_nil] at h
          omega
      | cons x rest => rfl
  · simp only [calcZChecked, calc_z]
    split
    · rfl
    · split
      case isTrue h => rfl
      case isFalse h =>
        simp only [cdiv, if_neg h, Option.map_some']
  · simp only [calcRChecked, calc_r, rollingZChecked_eq]
    split
    · rfl
    · have hif : (if 34 < s.length then some (rolling_z s.dropLast 34) else some none) =
          some (if 34 < s.length then rolling_z s.dropLast 34 else none) := by
        split <;> rfl
      rw [hif]
      cases rolling_z s 34 with
      | none => cases (if 34 < s.length then rolling_z s.dropLast 34 else none) <;> rfl
      | some zc =>
          cases (if 34 < s.length then rolling_z s.dropLast 34 else none) with
          | none => rfl
          | some zp =>
              by_cases hz : zp = 0
              · simp only [if_pos hz]
              · simp only [if_neg hz, cdiv, Option.map_some']
  · simp only [thetaChecked, calc_theta_from_flow, atan2Checked, atan2]
    split
    · rfl
    · by_cases h1 : 0 < t.getD (t.length - 2) 0
      · simp only [if_pos h1, cdivR, if_neg (ne_of_gt h1), Option.map_some']
      · simp only [if_neg h1]
        by_cases h2 : t.getD (t.length - 2) 0 < 0
        · simp only [if_pos h2, cdivR, if_neg (ne_of_lt h2), Option.map_some']
        · simp only [if_neg h2, Option.map_some']

/-- Witness for C7 with period 1 on empty series. -/
theorem C7_witness :
    0 < 1 ∧
      (emaChecked [] 1 = some (calculate_ema [] 1) ∧
        calcZChecked [] 0 = some (calc_z [] 0) ∧
        calcRChecked [] = some (calc_r []) ∧
        thetaChecked [] = some (calc_theta_from_flow [])) :=
  ⟨Nat.one_pos, C7_divisions_guarded [] [] 1 0 Nat.one_pos⟩

end PsiEma
